import Mathlib

/-!
# Verification of the linear-hashing table in `src/hash.rs`

Shallow embedding of the Rust implementation: keys are byte sequences
(`List Nat`, each element a byte of the UTF-8 encoding of the Rust `&str`),
values are a type parameter `T` (the Rust generic `T: Clone`), buckets are
ordered lists, and the table state carries the bucket vector, the address
width `bits` and the split cursor `split_bucket`, exactly as the Rust
`struct Hash<T>`.

The Rust `upsert`/`split` pair is mutually recursive (a split re-inserts the
entries of the split bucket through `upsert`, which may trigger a further
split), so the embedding threads an explicit fuel bounding the *nesting
depth* of splits: `upsertF fuel` performs a triggered split only when
`fuel > 0`, running the re-insertion pass at `fuel - 1`, and returns `none`
on exhaustion.  All definitions are structurally recursive so that concrete
runs evaluate inside the kernel.
-/

namespace StupidHash

/-- A key, as the byte sequence the Rust code hashes (`name.bytes()`). -/
abbrev Key := List Nat

/-- `struct NameVal<T>`: one owned key paired with one value. -/
structure NameVal (T : Type) where
  name : Key
  value : T

/-- `struct Hash<T>`: the bucket vector, the address width in bits, and the
split cursor. -/
structure Hash (T : Type) where
  table : List (List (NameVal T))
  bits : Nat
  split_bucket : Nat

/-- `const NHASH: usize = 32`. -/
def NHASH : Nat := 32

/-- `const MULTIPLIER: usize = 31`. -/
def MULTIPLIER : Nat := 31

/-- The rolling polynomial hash of `Hash::hash`, lines 51-61:
`h = h.wrapping_mul(MULTIPLIER).wrapping_add(p)` over the key's bytes,
with the `usize` (64-bit) wraparound made explicit. -/
def hashBytes (name : Key) : Nat :=
  name.foldl (fun h p => (h * MULTIPLIER % 2 ^ 64 + p) % 2 ^ 64) 0

variable {T : Type}

/-- `Hash::new`: 32 empty buckets, `bits = 5`, `split_bucket = 0`. -/
def Hash.new : Hash T :=
  ⟨List.replicate NHASH [], 5, 0⟩

/-- `Hash::len`: the current bucket count. -/
def Hash.len (s : Hash T) : Nat :=
  s.table.length

/-- `Hash::hash`, lines 50-67: mask the rolling hash to `bits` low bits;
if the masked value addresses a materialized bucket use it, otherwise
clear its top addressing bit. -/
def Hash.hash (s : Hash T) (name : Key) : Nat :=
  let h := hashBytes name
  let m := h &&& (1 <<< s.bits - 1)
  if m < s.len then m else m ^^^ 1 <<< (s.bits - 1)

/-- The linear scan of a bucket performed by `Hash::lookup`, lines 75-82. -/
def lookupEntry (k : Key) : List (NameVal T) → Option T
  | [] => none
  | e :: rest => if e.name = k then some e.value else lookupEntry k rest

/-- `Hash::lookup`, lines 69-84. -/
def Hash.lookup (s : Hash T) (name : Key) : Option T :=
  lookupEntry name (s.table.getD (s.hash name) [])

/-- The bucket-mutating scan of `Hash::upsert`, lines 96-107: overwrite the
value of the first entry with a matching key in place (returning `false`),
or append a new entry (returning `true`). -/
def upsertEntry (k : Key) (v : T) : List (NameVal T) → Bool × List (NameVal T)
  | [] => (true, [⟨k, v⟩])
  | e :: rest =>
    if e.name = k then (false, ⟨e.name, v⟩ :: rest)
    else
      let r := upsertEntry k v rest
      (r.1, e :: r.2)

/-- Lines 89-107 of `Hash::upsert`: address the key, run the bucket scan,
and write the updated bucket back.  Returns the `true = new key` flag and
the updated state, before any split check. -/
def Hash.upsertStep (s : Hash T) (name : Key) (value : T) : Bool × Hash T :=
  let h := s.hash name
  let r := upsertEntry name value (s.table.getD h [])
  (r.1, ⟨s.table.set h r.2, s.bits, s.split_bucket⟩)

/-- Lines 117-126 of `Hash::split`: take the entries of the bucket at
`split_bucket`, clear it, append one new empty bucket, and advance the
split cursor (incrementing `bits` and resetting the cursor when the new
length exceeds `2^bits - 1`).  Returns the removed entries together with
the advanced state; the re-insertion pass (lines 128-131) is performed by
the caller. -/
def Hash.splitStep (s : Hash T) : List (NameVal T) × Hash T :=
  let orig := s.table.getD s.split_bucket []
  let t1 := s.table.set s.split_bucket [] ++ [[]]
  if t1.length > 1 <<< s.bits - 1 then (orig, ⟨t1, s.bits + 1, 0⟩)
  else (orig, ⟨t1, s.bits, s.split_bucket + 1⟩)

/-- The re-insertion loop of `Hash::split`, lines 128-131, parameterized by
the upsert used for each entry (`none` aborts the loop). -/
def reinsertWith (up : Hash T → Key → T → Option (Bool × Hash T)) :
    Hash T → List (NameVal T) → Option (Hash T)
  | s, [] => some s
  | s, e :: rest =>
    match up s e.name e.value with
    | some r => reinsertWith up r.2 rest
    | none => none

/-- `Hash::upsert`, lines 88-114, with fuel bounding the nesting depth of
splits: when the appended entry makes the bucket exceed `2^bits` entries,
`split` (lines 116-131) runs, its re-insertion pass upserting at one fuel
level lower.  `none` means the fuel did not cover the split nesting that
the run required. -/
def upsertF : Nat → Hash T → Key → T → Option (Bool × Hash T)
  | 0, s, name, value =>
    let cnt := (s.table.getD (s.hash name) []).length
    let r := s.upsertStep name value
    if r.1 then
      if cnt + 1 > 1 <<< s.bits then none
      else some (true, r.2)
    else some (false, r.2)
  | fuel + 1, s, name, value =>
    let cnt := (s.table.getD (s.hash name) []).length
    let r := s.upsertStep name value
    if r.1 then
      if cnt + 1 > 1 <<< s.bits then
        (reinsertWith (upsertF fuel) r.2.splitStep.2 r.2.splitStep.1).map
          fun t => (true, t)
      else some (true, r.2)
    else some (false, r.2)

/-- `Hash::split`, lines 116-131, as invoked on the state that just had an
entry pushed: cursor advance followed by the re-insertion pass. -/
def splitF (fuel : Nat) (s : Hash T) : Option (Hash T) :=
  reinsertWith (upsertF fuel) s.splitStep.2 s.splitStep.1

/-- The bucket-mutating scan of `Hash::remove`, lines 137-142: delete the
first entry with a matching key, returning its value. -/
def removeEntry (k : Key) : List (NameVal T) → Option T × List (NameVal T)
  | [] => (none, [])
  | e :: rest =>
    if e.name = k then (some e.value, rest)
    else
      let r := removeEntry k rest
      (r.1, e :: r.2)

/-- `Hash::remove`, lines 133-144. -/
def Hash.remove (s : Hash T) (name : Key) : Option T × Hash T :=
  let h := s.hash name
  let r := removeEntry name (s.table.getD h [])
  (r.1, ⟨s.table.set h r.2, s.bits, s.split_bucket⟩)

/-- Total number of entries stored in the table. -/
def Hash.totalEntries (s : Hash T) : Nat :=
  (s.table.map List.length).sum

/-- One client operation of the public interface (§6 of the spec). -/
inductive Op (T : Type) where
  | upsert (name : Key) (value : T)
  | remove (name : Key)
  | lookup (name : Key)

/-- Apply one operation.  `lookup` is read-only; `remove` is total;
`upsert` runs with fuel `totalEntries + 1`, which the termination theorem
shows is always sufficient on reachable states. -/
def applyOp (s : Hash T) : Op T → Option (Hash T)
  | .upsert name value => (upsertF (s.totalEntries + 1) s name value).map (·.2)
  | .remove name => some (s.remove name).2
  | .lookup _ => some s

/-- Run a sequence of operations from `Hash.new`. -/
def runOps (ops : List (Op T)) : Option (Hash T) :=
  ops.foldlM applyOp Hash.new

/-- A table state is reachable when some finite operation sequence
produces it from `Hash.new`. -/
def Reachable (s : Hash T) : Prop :=
  ∃ ops : List (Op T), runOps ops = some s

/-- The structural invariant maintained by the implementation:
`bits ≥ 1`, `2^(bits-1) ≤ bucket count ≤ 2^bits`, and the split cursor
stays within the low half (`split_bucket + 2^(bits-1) ≤ bucket count`). -/
def Inv (s : Hash T) : Prop :=
  1 ≤ s.bits ∧ 2 ^ (s.bits - 1) ≤ s.len ∧ s.len ≤ 2 ^ s.bits ∧
    s.split_bucket + 2 ^ (s.bits - 1) ≤ s.len

/-- Every bucket is free of duplicate keys. -/
def NodupKeys (s : Hash T) : Prop :=
  ∀ b ∈ s.table, (b.map NameVal.name).Nodup

/-! ## Concrete operation sequences

`run1Pairs`: 33 keys with rolling hash congruent to 33 mod 64 (values
100..132) followed by 31 keys congruent to 1 mod 64 (values 200..230); all
64 land in bucket 1.  `run1Key65` is a 65th bucket-1 key whose insertion
drives bucket 1 past 64 entries and triggers the second split.
`run2Pairs`: 64 keys congruent to 1 mod 64; `run2KeyC` is congruent to
33 mod 64.  `hotPairs`: 93 keys congruent to 1 mod 256, all hashing to
bucket 1 at every reachable depth, repeatedly overflowing it. -/

def run1Pairs : List (Key × Nat) := [([1, 2], 100), ([1, 66], 101), ([1, 130], 102), ([1, 194], 103), ([2, 35], 104), ([2, 99], 105), ([2, 163], 106), ([2, 227], 107), ([3, 4], 108), ([3, 68], 109), ([3, 132], 110), ([3, 196], 111), ([4, 37], 112), ([4, 101], 113), ([4, 165], 114), ([4, 229], 115), ([5, 6], 116), ([5, 70], 117), ([5, 134], 118), ([5, 198], 119), ([6, 39], 120), ([6, 103], 121), ([6, 167], 122), ([6, 231], 123), ([7, 8], 124), ([7, 72], 125), ([7, 136], 126), ([7, 200], 127), ([8, 41], 128), ([8, 105], 129), ([8, 169], 130), ([8, 233], 131), ([9, 10], 132), ([1, 34], 200), ([1, 98], 201), ([1, 162], 202), ([1, 226], 203), ([2, 3], 204), ([2, 67], 205), ([2, 131], 206), ([2, 195], 207), ([3, 36], 208), ([3, 100], 209), ([3, 164], 210), ([3, 228], 211), ([4, 5], 212), ([4, 69], 213), ([4, 133], 214), ([4, 197], 215), ([5, 38], 216), ([5, 102], 217), ([5, 166], 218), ([5, 230], 219), ([6, 7], 220), ([6, 71], 221), ([6, 135], 222), ([6, 199], 223), ([7, 40], 224), ([7, 104], 225), ([7, 168], 226), ([7, 232], 227), ([8, 9], 228), ([8, 73], 229), ([8, 137], 230)]
def run1Key65 : Key := [8, 201]
def run2Pairs : List (Key × Nat) := [([1, 34], 300), ([1, 98], 301), ([1, 162], 302), ([1, 226], 303), ([2, 3], 304), ([2, 67], 305), ([2, 131], 306), ([2, 195], 307), ([3, 36], 308), ([3, 100], 309), ([3, 164], 310), ([3, 228], 311), ([4, 5], 312), ([4, 69], 313), ([4, 133], 314), ([4, 197], 315), ([5, 38], 316), ([5, 102], 317), ([5, 166], 318), ([5, 230], 319), ([6, 7], 320), ([6, 71], 321), ([6, 135], 322), ([6, 199], 323), ([7, 40], 324), ([7, 104], 325), ([7, 168], 326), ([7, 232], 327), ([8, 9], 328), ([8, 73], 329), ([8, 137], 330), ([8, 201], 331), ([9, 42], 332), ([9, 106], 333), ([9, 170], 334), ([9, 234], 335), ([10, 11], 336), ([10, 75], 337), ([10, 139], 338), ([10, 203], 339), ([11, 44], 340), ([11, 108], 341), ([11, 172], 342), ([11, 236], 343), ([12, 13], 344), ([12, 77], 345), ([12, 141], 346), ([12, 205], 347), ([13, 46], 348), ([13, 110], 349), ([13, 174], 350), ([13, 238], 351), ([14, 15], 352), ([14, 79], 353), ([14, 143], 354), ([14, 207], 355), ([15, 48], 356), ([15, 112], 357), ([15, 176], 358), ([15, 240], 359), ([16, 17], 360), ([16, 81], 361), ([16, 145], 362), ([16, 209], 363)]
def run2KeyC : Key := [9, 202]
def hotPairs : List (Key × Nat) := [([1, 226], 400), ([2, 195], 401), ([3, 164], 402), ([4, 133], 403), ([5, 102], 404), ([6, 71], 405), ([7, 40], 406), ([8, 9], 407), ([9, 234], 408), ([10, 203], 409), ([11, 172], 410), ([12, 141], 411), ([13, 110], 412), ([14, 79], 413), ([15, 48], 414), ([16, 17], 415), ([17, 242], 416), ([18, 211], 417), ([19, 180], 418), ([20, 149], 419), ([21, 118], 420), ([22, 87], 421), ([23, 56], 422), ([24, 25], 423), ([25, 250], 424), ([26, 219], 425), ([27, 188], 426), ([28, 157], 427), ([29, 126], 428), ([30, 95], 429), ([31, 64], 430), ([32, 33], 431), ([33, 2], 432), ([34, 227], 433), ([35, 196], 434), ([36, 165], 435), ([37, 134], 436), ([38, 103], 437), ([39, 72], 438), ([40, 41], 439), ([41, 10], 440), ([42, 235], 441), ([43, 204], 442), ([44, 173], 443), ([45, 142], 444), ([46, 111], 445), ([47, 80], 446), ([48, 49], 447), ([49, 18], 448), ([50, 243], 449), ([51, 212], 450), ([52, 181], 451), ([53, 150], 452), ([54, 119], 453), ([55, 88], 454), ([56, 57], 455), ([57, 26], 456), ([58, 251], 457), ([59, 220], 458), ([60, 189], 459), ([61, 158], 460), ([62, 127], 461), ([63, 96], 462), ([64, 65], 463), ([65, 34], 464), ([66, 3], 465), ([67, 228], 466), ([68, 197], 467), ([69, 166], 468), ([70, 135], 469), ([71, 104], 470), ([72, 73], 471), ([73, 42], 472), ([74, 11], 473), ([75, 236], 474), ([76, 205], 475), ([77, 174], 476), ([78, 143], 477), ([79, 112], 478), ([80, 81], 479), ([81, 50], 480), ([82, 19], 481), ([83, 244], 482), ([84, 213], 483), ([85, 182], 484), ([86, 151], 485), ([87, 120], 486), ([88, 89], 487), ([89, 58], 488), ([90, 27], 489), ([91, 252], 490), ([92, 221], 491), ([93, 190], 492)]
-- kA = [1, 2]  k66 = [66, 3]

def run1Ops : List (Op Nat) := run1Pairs.map fun p => Op.upsert p.1 p.2

def run2Ops : List (Op Nat) := run2Pairs.map fun p => Op.upsert p.1 p.2

def hotOps : List (Op Nat) := hotPairs.map fun p => Op.upsert p.1 p.2

def hot65Ops : List (Op Nat) := (hotPairs.take 65).map fun p => Op.upsert p.1 p.2

/-! ## Bit-level lemmas -/

theorem testBit_two_pow_add_of_lt {j r i : Nat} (hij : i < j) :
    (2 ^ j + r).testBit i = r.testBit i := by
  rw [Nat.testBit_to_div_mod, Nat.testBit_to_div_mod]
  have hpow : (2 : Nat) ^ j = 2 ^ (j - i - 1) * 2 * 2 ^ i := by
    rw [Nat.mul_assoc, ← Nat.pow_succ']
    rw [← pow_add]
    congr 1
    omega
  have hdiv : (2 ^ j + r) / 2 ^ i = r / 2 ^ i + 2 ^ (j - i - 1) * 2 := by
    rw [hpow, Nat.add_comm, Nat.add_mul_div_right _ _ (Nat.pos_pow_of_pos i (by omega))]
  rw [hdiv, Nat.mul_comm, Nat.add_comm, Nat.mul_add_mod]

/-- Clearing the top set bit of `m` (with `2^j ≤ m < 2^(j+1)`) by xor
subtracts `2^j`. -/
theorem xor_top_bit {j m : Nat} (hlo : 2 ^ j ≤ m) (hhi : m < 2 ^ (j + 1)) :
    m ^^^ 2 ^ j = m - 2 ^ j := by
  obtain ⟨r, rfl⟩ : ∃ r, m = 2 ^ j + r := ⟨m - 2 ^ j, by omega⟩
  have hr : r < 2 ^ j := by
    have : (2 : Nat) ^ (j + 1) = 2 ^ j + 2 ^ j := by rw [pow_succ]; omega
    omega
  have hsub : 2 ^ j + r - 2 ^ j = r := by omega
  rw [hsub]
  apply Nat.eq_of_testBit_eq
  intro i
  rw [Nat.testBit_xor]
  rcases lt_trichotomy i j with hij | rfl | hij
  · rw [testBit_two_pow_add_of_lt hij,
      Nat.testBit_two_pow_of_ne (by omega : j ≠ i)]
    simp
  · have h1 : (2 ^ i + r) / 2 ^ i = 1 := by
      rw [Nat.add_comm, Nat.add_div_right _ (Nat.pos_pow_of_pos i (by omega)),
        Nat.div_eq_of_lt hr]
    have h2 : (2 ^ i + r).testBit i = true := by
      rw [Nat.testBit_to_div_mod, h1]
      rfl
    rw [h2, Nat.testBit_two_pow_self, Nat.testBit_lt_two_pow hr]
    rfl
  · have hmi : 2 ^ j + r < 2 ^ i := by
      calc 2 ^ j + r < 2 ^ (j + 1) := hhi
        _ ≤ 2 ^ i := Nat.pow_le_pow_right (by omega) hij
    rw [Nat.testBit_lt_two_pow hmi, Nat.testBit_two_pow_of_ne (by omega : j ≠ i),
      Nat.testBit_lt_two_pow (lt_of_le_of_lt (by omega) hmi)]
    rfl

/-- The masked hash in `Hash::hash`, rewritten through `%`. -/
theorem hash_mask_eq (s : Hash T) (name : Key) :
    hashBytes name &&& (1 <<< s.bits - 1) = hashBytes name % 2 ^ s.bits := by
  rw [Nat.shiftLeft_eq, Nat.one_mul, Nat.and_pow_two_sub_one_eq_mod]

/-- Under the structural invariant, `Hash::hash` always returns the index
of a materialized bucket. -/
theorem Hash.hash_lt (s : Hash T) (name : Key) (hinv : Inv s) :
    s.hash name < s.len := by
  obtain ⟨hb, hlo, hhi, -⟩ := hinv
  simp only [Hash.hash]
  rw [hash_mask_eq]
  set m := hashBytes name % 2 ^ s.bits with hm
  by_cases hlt : m < s.len
  · simp [hlt]
  · have hmlt : m < 2 ^ s.bits := Nat.mod_lt _ (Nat.pos_pow_of_pos _ (by omega))
    have hmge : 2 ^ (s.bits - 1) ≤ m := le_trans hlo (by omega)
    have hsucc : s.bits - 1 + 1 = s.bits := by omega
    have hx : m ^^^ 2 ^ (s.bits - 1) = m - 2 ^ (s.bits - 1) :=
      xor_top_bit hmge (by rw [hsucc]; exact hmlt)
    have h2 : (2 : Nat) ^ s.bits = 2 ^ (s.bits - 1) * 2 := by
      rw [← pow_succ]
      congr 1
      omega
    simp only [hlt, if_false]
    rw [Nat.shiftLeft_eq, Nat.one_mul, hx]
    omega

/-- `Hash::hash` reads the state only through `bits` and `len`. -/
theorem Hash.hash_congr {s t : Hash T} (name : Key) (hbits : s.bits = t.bits)
    (hlen : s.len = t.len) : s.hash name = t.hash name := by
  simp only [Hash.hash, hbits, hlen]

/-! ## Bucket-scan lemmas -/

theorem lookupEntry_eq_none {l : List (NameVal T)} {k : Key}
    (h : ∀ e ∈ l, e.name ≠ k) : lookupEntry k l = none := by
  induction l with
  | nil => rfl
  | cons e rest ih =>
    have hne : e.name ≠ k := h e (by simp)
    simp only [lookupEntry, hne, if_false]
    exact ih fun x hx => h x (by simp [hx])

theorem upsertEntry_of_not_mem {l : List (NameVal T)} {k : Key} (v : T)
    (h : ∀ e ∈ l, e.name ≠ k) : upsertEntry k v l = (true, l ++ [⟨k, v⟩]) := by
  induction l with
  | nil => rfl
  | cons e rest ih =>
    have hne : e.name ≠ k := h e (by simp)
    simp only [upsertEntry, hne, if_false]
    rw [ih fun x hx => h x (by simp [hx])]
    rfl

/-- The scan of `upsert` reports a new key exactly when no entry of the
bucket carries the key. -/
theorem upsertEntry_fst_iff {l : List (NameVal T)} {k : Key} (v : T) :
    (upsertEntry k v l).1 = true ↔ ∀ e ∈ l, e.name ≠ k := by
  induction l with
  | nil => simp [upsertEntry]
  | cons e rest ih =>
    by_cases he : e.name = k
    · simp [upsertEntry, he]
    · simp only [upsertEntry, he, if_false]
      simp only [List.mem_cons]
      constructor
      · intro h x hx
        rcases hx with rfl | hx
        · exact he
        · exact (ih.mp h) x hx
      · intro h
        exact ih.mpr fun x hx => h x (Or.inr hx)

/-- The names in the bucket after the `upsert` scan: unchanged on
overwrite, the new key appended on insert. -/
theorem upsertEntry_map_name {l : List (NameVal T)} {k : Key} (v : T) :
    (upsertEntry k v l).2.map NameVal.name =
      if (upsertEntry k v l).1 then l.map NameVal.name ++ [k]
      else l.map NameVal.name := by
  induction l with
  | nil => simp [upsertEntry]
  | cons e rest ih =>
    by_cases he : e.name = k
    · simp [upsertEntry, he]
    · simp only [upsertEntry, he, if_false, List.map_cons]
      rw [ih]
      by_cases hb : (upsertEntry k v rest).1 <;> simp [hb]

theorem upsertEntry_length {l : List (NameVal T)} {k : Key} (v : T) :
    (upsertEntry k v l).2.length =
      if (upsertEntry k v l).1 then l.length + 1 else l.length := by
  have h := @upsertEntry_map_name T l k v
  by_cases hb : (upsertEntry k v l).1
  · have := congrArg List.length h
    simpa [hb] using this
  · have := congrArg List.length h
    simpa [hb] using this

/-- Overwriting preserves key-nodup buckets; inserting preserves them
because the scan certifies the key is absent. -/
theorem upsertEntry_nodup {l : List (NameVal T)} {k : Key} (v : T)
    (h : (l.map NameVal.name).Nodup) :
    ((upsertEntry k v l).2.map NameVal.name).Nodup := by
  rw [upsertEntry_map_name]
  by_cases hb : (upsertEntry k v l).1
  · simp only [hb, if_true]
    have hk : ∀ e ∈ l, e.name ≠ k := (upsertEntry_fst_iff v).mp hb
    have hknot : k ∉ l.map NameVal.name := by
      intro hmem
      obtain ⟨e, he, rfl⟩ := List.mem_map.mp hmem
      exact hk e he rfl
    simpa [List.nodup_append] using ⟨h, hk⟩
  · simpa [hb]

/-- After an overwrite, looking the key up in the scanned bucket returns
the new value. -/
theorem lookupEntry_upsertEntry {l : List (NameVal T)} {k : Key} (v : T) :
    lookupEntry k (upsertEntry k v l).2 = some v := by
  induction l with
  | nil => simp [upsertEntry, lookupEntry]
  | cons e rest ih =>
    by_cases he : e.name = k
    · simp [upsertEntry, he, lookupEntry]
    · simp only [upsertEntry, he, if_false]
      simpa [lookupEntry, he] using ih

theorem removeEntry_of_not_mem {l : List (NameVal T)} {k : Key}
    (h : ∀ e ∈ l, e.name ≠ k) : removeEntry k l = (none, l) := by
  induction l with
  | nil => rfl
  | cons e rest ih =>
    have hne : e.name ≠ k := h e (by simp)
    simp only [removeEntry, hne, if_false]
    rw [ih fun x hx => h x (by simp [hx])]

/-- Removing deletes exactly the first matching entry, keeping the rest in
order. -/
theorem removeEntry_decomp {pre post : List (NameVal T)} {e : NameVal T} {k : Key}
    (he : e.name = k) (hpre : ∀ x ∈ pre, x.name ≠ k) :
    removeEntry k (pre ++ e :: post) = (some e.value, pre ++ post) := by
  induction pre with
  | nil => simp [removeEntry, he]
  | cons x rest ih =>
    have hne : x.name ≠ k := hpre x (by simp)
    simp only [List.cons_append, removeEntry, hne, if_false, List.append_eq]
    rw [ih fun y hy => hpre y (by simp [hy])]

/-- The names surviving a removal form a sublist of the original names. -/
theorem removeEntry_map_name_sublist (l : List (NameVal T)) (k : Key) :
    ((removeEntry k l).2.map NameVal.name).Sublist (l.map NameVal.name) := by
  induction l with
  | nil => simp [removeEntry]
  | cons e rest ih =>
    by_cases he : e.name = k
    · simp only [removeEntry, he, if_true, List.map_cons]
      exact (List.sublist_cons_self _ _).trans (List.Sublist.refl _) |>.trans
        (List.Sublist.refl _)
    · simp only [removeEntry, he, if_false, List.map_cons]
      exact ih.cons₂ _

/-! ## List bookkeeping lemmas -/

/-- Entry-count bookkeeping for writing one bucket of the table. -/
theorem sum_length_set {α : Type} (t : List (List α)) (i : Nat) (b : List α)
    (hi : i < t.length) :
    ((t.set i b).map List.length).sum + (t.getD i []).length
      = (t.map List.length).sum + b.length := by
  induction t generalizing i with
  | nil => simp at hi
  | cons x rest ih =>
    cases i with
    | zero =>
      simp only [List.set, List.map_cons, List.sum_cons, List.getD_cons_zero]
      omega
    | succ n =>
      simp only [List.set, List.map_cons, List.sum_cons, List.getD_cons_succ]
      have := ih n (by simpa using hi)
      omega

/-- A bucket never holds more entries than the whole table. -/
theorem length_getD_le_sum {α : Type} (t : List (List α)) (i : Nat) :
    (t.getD i []).length ≤ (t.map List.length).sum := by
  induction t generalizing i with
  | nil => simp [List.getD]
  | cons x rest ih =>
    cases i with
    | zero =>
      simp only [List.getD_cons_zero, List.map_cons, List.sum_cons]
      omega
    | succ n =>
      simp only [List.getD_cons_succ, List.map_cons, List.sum_cons]
      have := ih n
      omega

theorem getD_mem_or_eq_nil {α : Type} (t : List (List α)) (i : Nat) :
    t.getD i [] ∈ t ∨ t.getD i [] = [] := by
  by_cases hi : i < t.length
  · left
    rw [List.getD_eq_getElem?_getD, List.getElem?_eq_getElem hi]
    exact List.getElem_mem hi
  · right
    rw [List.getD_eq_getElem?_getD, List.getElem?_eq_none (by omega)]
    rfl

/-! ## Step lemmas for `upsert` and `split` -/

/-- The invariant only reads `bits`, `len` and `split_bucket`. -/
theorem inv_of_frame {s t : Hash T} (hb : t.bits = s.bits) (hl : t.len = s.len)
    (hp : t.split_bucket = s.split_bucket) (h : Inv s) : Inv t := by
  rw [Inv, hb, hl, hp]
  exact h

theorem upsertStep_bits (s : Hash T) (k : Key) (v : T) :
    (s.upsertStep k v).2.bits = s.bits := rfl

theorem upsertStep_split_bucket (s : Hash T) (k : Key) (v : T) :
    (s.upsertStep k v).2.split_bucket = s.split_bucket := rfl

theorem upsertStep_len (s : Hash T) (k : Key) (v : T) :
    (s.upsertStep k v).2.len = s.len := by
  simp [Hash.upsertStep, Hash.len]

theorem upsertStep_nodup (s : Hash T) (k : Key) (v : T) (h : NodupKeys s) :
    NodupKeys (s.upsertStep k v).2 := by
  intro b hb
  simp only [Hash.upsertStep] at hb
  rcases List.mem_or_eq_of_mem_set hb with hmem | rfl
  · exact h b hmem
  · apply upsertEntry_nodup
    rcases getD_mem_or_eq_nil s.table (s.hash k) with hmem | hnil
    · exact h _ hmem
    · rw [hnil]
      simp

theorem upsertStep_totalEntries_le (s : Hash T) (k : Key) (v : T) :
    (s.upsertStep k v).2.totalEntries ≤ s.totalEntries + 1 := by
  simp only [Hash.upsertStep, Hash.totalEntries]
  by_cases hlt : s.hash k < s.table.length
  · have hsum := sum_length_set s.table (s.hash k)
      (upsertEntry k v (s.table.getD (s.hash k) [])).2 hlt
    have hle : (upsertEntry k v (s.table.getD (s.hash k) [])).2.length ≤
        (s.table.getD (s.hash k) []).length + 1 := by
      rw [upsertEntry_length]
      split <;> omega
    omega
  · rw [List.set_eq_of_length_le (by omega)]
    omega

theorem splitStep_len (s : Hash T) : (s.splitStep).2.len = s.len + 1 := by
  simp only [Hash.splitStep]
  split <;> simp [Hash.len, List.length_set]

theorem splitStep_bits_ge (s : Hash T) : s.bits ≤ (s.splitStep).2.bits := by
  simp only [Hash.splitStep]
  split <;> simp

/-- Advancing the cursor preserves the structural invariant. -/
theorem splitStep_inv (s : Hash T) (h : Inv s) : Inv (s.splitStep).2 := by
  obtain ⟨hb, hlo, hhi, hsp⟩ := h
  have hone : (1 : Nat) ≤ 2 ^ (s.bits - 1) := Nat.one_le_two_pow
  have hpow : (2 : Nat) ^ s.bits = 2 ^ (s.bits - 1) * 2 := by
    rw [← pow_succ]
    congr 1
    omega
  have hpow2 : (2 : Nat) ^ (s.bits + 1) = 2 ^ s.bits * 2 := pow_succ 2 s.bits
  have hL : s.len = s.table.length := rfl
  simp only [Hash.splitStep]
  split
  next hc =>
    simp only [List.length_append, List.length_set, List.length_cons,
      List.length_nil] at hc
    rw [Nat.shiftLeft_eq, Nat.one_mul] at hc
    refine ⟨?_, ?_, ?_, ?_⟩ <;>
      simp only [Inv, Hash.len, List.length_append, List.length_set,
        List.length_cons, List.length_nil, Nat.add_sub_cancel] <;> omega
  next hc =>
    simp only [List.length_append, List.length_set, List.length_cons,
      List.length_nil] at hc
    rw [Nat.shiftLeft_eq, Nat.one_mul] at hc
    refine ⟨?_, ?_, ?_, ?_⟩ <;>
      simp only [Inv, Hash.len, List.length_append, List.length_set,
        List.length_cons, List.length_nil] <;> omega

theorem splitStep_nodup (s : Hash T) (h : NodupKeys s) :
    NodupKeys (s.splitStep).2 := by
  have htab : ∀ b ∈ s.table.set s.split_bucket [] ++ [([] : List (NameVal T))],
      (b.map NameVal.name).Nodup := by
    intro b hb
    rcases List.mem_append.mp hb with hmem | hmem
    · rcases List.mem_or_eq_of_mem_set hmem with hmem' | rfl
      · exact h b hmem'
      · simp
    · simp only [List.mem_singleton] at hmem
      subst hmem
      simp
  simp only [Hash.splitStep]
  split <;> exact htab

/-- Splitting removes exactly the entries of the split bucket from the
table (they become the pending re-insertion list). -/
theorem splitStep_totalEntries (s : Hash T) (hsp : s.split_bucket < s.len) :
    (s.splitStep).2.totalEntries + (s.splitStep).1.length = s.totalEntries := by
  have hsum := sum_length_set s.table s.split_bucket ([] : List (NameVal T)) hsp
  have htot : ((s.table.set s.split_bucket [] ++ [([] : List (NameVal T))]).map
      List.length).sum + (s.table.getD s.split_bucket []).length
      = (s.table.map List.length).sum := by
    rw [List.map_append, List.sum_append]
    simpa using hsum
  simp only [Hash.splitStep]
  split <;> simpa [Hash.totalEntries] using htot

/-! ## Preservation of the invariant along fuelled execution -/

theorem upsertStep_fst (s : Hash T) (k : Key) (v : T) :
    (s.upsertStep k v).1 = (upsertEntry k v (s.table.getD (s.hash k) [])).1 := rfl

/-- Outcome facts for the non-splitting part of `upsert`. -/
theorem upsertStep_outcome (s : Hash T) (k : Key) (v : T) (hinv : Inv s)
    (hnd : NodupKeys s) :
    Inv (s.upsertStep k v).2 ∧ NodupKeys (s.upsertStep k v).2 ∧
      (s.upsertStep k v).2.len = s.len ∧ (s.upsertStep k v).2.bits = s.bits ∧
      (s.upsertStep k v).2.totalEntries ≤ s.totalEntries + 1 :=
  ⟨inv_of_frame (upsertStep_bits s k v) (upsertStep_len s k v)
      (upsertStep_split_bucket s k v) hinv,
    upsertStep_nodup s k v hnd, upsertStep_len s k v, upsertStep_bits s k v,
    upsertStep_totalEntries_le s k v⟩

/-- Preservation through the re-insertion loop, given preservation for the
upsert it performs. -/
theorem reinsert_pres {fuel : Nat}
    (H : ∀ {s : Hash T} {k : Key} {v : T} {b : Bool} {s' : Hash T},
      upsertF fuel s k v = some (b, s') → Inv s → NodupKeys s →
      Inv s' ∧ NodupKeys s' ∧ s.len ≤ s'.len ∧ s.bits ≤ s'.bits ∧
        s'.totalEntries ≤ s.totalEntries + 1) :
    ∀ (l : List (NameVal T)) {t t' : Hash T},
      reinsertWith (upsertF fuel) t l = some t' → Inv t → NodupKeys t →
      Inv t' ∧ NodupKeys t' ∧ t.len ≤ t'.len ∧ t.bits ≤ t'.bits ∧
        t'.totalEntries ≤ t.totalEntries + l.length := by
  intro l
  induction l with
  | nil =>
    intro t t' h hinv hnd
    simp only [reinsertWith] at h
    cases h
    exact ⟨hinv, hnd, le_refl _, le_refl _, by omega⟩
  | cons e rest ih =>
    intro t t' h hinv hnd
    simp only [reinsertWith] at h
    cases hup : upsertF fuel t e.name e.value with
    | none => rw [hup] at h; simp at h
    | some r =>
      obtain ⟨b1, t1⟩ := r
      rw [hup] at h
      obtain ⟨hinv1, hnd1, hlen1, hbits1, htot1⟩ := H hup hinv hnd
      dsimp only at h
      obtain ⟨hinv2, hnd2, hlen2, hbits2, htot2⟩ := ih h hinv1 hnd1
      refine ⟨hinv2, hnd2, le_trans hlen1 hlen2, le_trans hbits1 hbits2, ?_⟩
      simp only [List.length_cons]
      omega

/-- A successful `upsert` preserves the structural invariant and bucket
key-uniqueness, never shrinks the table, never lowers `bits`, and adds at
most one entry. -/
theorem upsertF_pres : ∀ (fuel : Nat) {s : Hash T} {k : Key} {v : T} {b : Bool}
    {s' : Hash T},
    upsertF fuel s k v = some (b, s') → Inv s → NodupKeys s →
    Inv s' ∧ NodupKeys s' ∧ s.len ≤ s'.len ∧ s.bits ≤ s'.bits ∧
      s'.totalEntries ≤ s.totalEntries + 1 := by
  intro fuel
  induction fuel with
  | zero =>
    intro s k v b s' hrun hinv hnd
    simp only [upsertF] at hrun
    obtain ⟨hinv2, hnd2, hlen2, hbits2, htot2⟩ := upsertStep_outcome s k v hinv hnd
    split at hrun
    · split at hrun
      · simp at hrun
      · injection hrun with h
        injection h with h1 h2
        subst h2
        exact ⟨hinv2, hnd2, le_of_eq hlen2.symm, le_of_eq hbits2.symm, htot2⟩
    · injection hrun with h
      injection h with h1 h2
      subst h2
      exact ⟨hinv2, hnd2, le_of_eq hlen2.symm, le_of_eq hbits2.symm, htot2⟩
  | succ fuel ih =>
    intro s k v b s' hrun hinv hnd
    simp only [upsertF] at hrun
    obtain ⟨hinv2, hnd2, hlen2, hbits2, htot2⟩ := upsertStep_outcome s k v hinv hnd
    split at hrun
    · split at hrun
      · rw [Option.map_eq_some'] at hrun
        obtain ⟨t', hre, heq⟩ := hrun
        injection heq with h1 h2
        subst h2
        set r2 := (s.upsertStep k v).2 with hr2
        have hsp : r2.split_bucket < r2.len := by
          obtain ⟨hb', hlo', hhi', hsp'⟩ := hinv2
          have : (1 : Nat) ≤ 2 ^ (r2.bits - 1) := Nat.one_le_two_pow
          omega
        have hinv3 : Inv r2.splitStep.2 := splitStep_inv r2 hinv2
        have hnd3 : NodupKeys r2.splitStep.2 := splitStep_nodup r2 hnd2
        have htot3 := splitStep_totalEntries r2 hsp
        obtain ⟨hinv4, hnd4, hlen4, hbits4, htot4⟩ := reinsert_pres
          (fun h a c => ih h a c) r2.splitStep.1 hre hinv3 hnd3
        have hlen3 : r2.splitStep.2.len = r2.len + 1 := splitStep_len r2
        have hbits3 : r2.bits ≤ r2.splitStep.2.bits := splitStep_bits_ge r2
        refine ⟨hinv4, hnd4, ?_, ?_, ?_⟩
        · omega
        · omega
        · omega
      · injection hrun with h
        injection h with h1 h2
        subst h2
        exact ⟨hinv2, hnd2, le_of_eq hlen2.symm, le_of_eq hbits2.symm, htot2⟩
    · injection hrun with h
      injection h with h1 h2
      subst h2
      exact ⟨hinv2, hnd2, le_of_eq hlen2.symm, le_of_eq hbits2.symm, htot2⟩

/-! ## Fuel sufficiency: the split recursion always terminates -/

/-- Totality of the re-insertion loop, given totality of the upsert it
performs at the same fuel. -/
theorem reinsert_total {fuel : Nat}
    (H : ∀ (s : Hash T) (k : Key) (v : T), Inv s → NodupKeys s →
      s.totalEntries + 1 ≤ fuel + s.len → (upsertF fuel s k v).isSome = true) :
    ∀ (l : List (NameVal T)) (t : Hash T), Inv t → NodupKeys t →
      t.totalEntries + l.length ≤ fuel + t.len →
      (reinsertWith (upsertF fuel) t l).isSome = true := by
  intro l
  induction l with
  | nil =>
    intro t _ _ _
    simp [reinsertWith]
  | cons e rest ih =>
    intro t hinv hnd hfe
    simp only [List.length_cons] at hfe
    have hs := H t e.name e.value hinv hnd (by omega)
    simp only [reinsertWith]
    cases hup : upsertF fuel t e.name e.value with
    | none => rw [hup] at hs; simp at hs
    | some r =>
      obtain ⟨b1, t1⟩ := r
      dsimp only
      obtain ⟨hinv1, hnd1, hlen1, hbits1, htot1⟩ := upsertF_pres fuel hup hinv hnd
      exact ih t1 hinv1 hnd1 (by omega)

/-- With fuel at least `totalEntries + 1 - len`, `upsert` never runs out:
every split performed strictly grows the table while the entry count never
grows past one more than at the start, and a split can only trigger while
some bucket (hence the entry count) exceeds `2^bits ≥ len`. -/
theorem upsertF_total : ∀ (fuel : Nat) (s : Hash T) (k : Key) (v : T),
    Inv s → NodupKeys s → s.totalEntries + 1 ≤ fuel + s.len →
    (upsertF fuel s k v).isSome = true := by
  intro fuel
  induction fuel with
  | zero =>
    intro s k v hinv hnd hfe
    simp only [upsertF]
    split
    next hb =>
      split
      next hc =>
        exfalso
        have hcnt : (s.table.getD (s.hash k) []).length ≤ s.totalEntries :=
          length_getD_le_sum _ _
        obtain ⟨hb', hlo', hhi', hsp'⟩ := hinv
        rw [Nat.shiftLeft_eq, Nat.one_mul] at hc
        omega
      next hc => simp
    next hb => simp
  | succ fuel ih =>
    intro s k v hinv hnd hfe
    simp only [upsertF]
    split
    next hb =>
      split
      next hc =>
        obtain ⟨hinv2, hnd2, hlen2, hbits2, htot2⟩ := upsertStep_outcome s k v hinv hnd
        set r2 := (s.upsertStep k v).2 with hr2
        have hsp : r2.split_bucket < r2.len := by
          obtain ⟨hb', hlo', hhi', hsp'⟩ := hinv2
          have : (1 : Nat) ≤ 2 ^ (r2.bits - 1) := Nat.one_le_two_pow
          omega
        have hinv3 : Inv r2.splitStep.2 := splitStep_inv r2 hinv2
        have hnd3 : NodupKeys r2.splitStep.2 := splitStep_nodup r2 hnd2
        have htot3 := splitStep_totalEntries r2 hsp
        have hlen3 : r2.splitStep.2.len = r2.len + 1 := splitStep_len r2
        have hre := reinsert_total (fun s k v hi hn hf => ih s k v hi hn hf)
          r2.splitStep.1 r2.splitStep.2 hinv3 hnd3 (by omega)
        cases hrw : reinsertWith (upsertF fuel) r2.splitStep.2 r2.splitStep.1 with
        | none => rw [hrw] at hre; simp at hre
        | some t' => simp
      next hc => simp
    next hb => simp

/-! ## Reachable states -/

theorem inv_new : Inv (Hash.new : Hash T) := by
  refine ⟨?_, ?_, ?_, ?_⟩ <;>
    simp [Hash.new, Hash.len, Inv, NHASH, List.length_replicate]

theorem nodup_new : NodupKeys (Hash.new : Hash T) := by
  intro b hb
  simp only [Hash.new, NHASH] at hb
  rw [List.eq_of_mem_replicate hb]
  simp

/-- Applying any public operation to a well-formed state succeeds and
yields a well-formed state. -/
theorem applyOp_pres (s : Hash T) (op : Op T) (hinv : Inv s) (hnd : NodupKeys s) :
    ∃ t, applyOp s op = some t ∧ Inv t ∧ NodupKeys t := by
  cases op with
  | upsert k v =>
    have htot := upsertF_total (s.totalEntries + 1) s k v hinv hnd (by omega)
    cases hup : upsertF (s.totalEntries + 1) s k v with
    | none => rw [hup] at htot; simp at htot
    | some r =>
      obtain ⟨b1, t1⟩ := r
      obtain ⟨hinv1, hnd1, -, -, -⟩ := upsertF_pres _ hup hinv hnd
      exact ⟨t1, by simp [applyOp, hup], hinv1, hnd1⟩
  | remove k =>
    refine ⟨(s.remove k).2, rfl, ?_, ?_⟩
    · refine inv_of_frame ?_ ?_ ?_ hinv
      · rfl
      · simp [Hash.remove, Hash.len]
      · rfl
    · intro b hb
      simp only [Hash.remove] at hb
      rcases List.mem_or_eq_of_mem_set hb with hmem | rfl
      · exact hnd b hmem
      · have hsub := removeEntry_map_name_sublist (s.table.getD (s.hash k) []) k
        have hbn : ((s.table.getD (s.hash k) []).map NameVal.name).Nodup := by
          rcases getD_mem_or_eq_nil s.table (s.hash k) with hmem | hnil
          · exact hnd _ hmem
          · rw [hnil]; simp
        exact List.Nodup.sublist hsub hbn
  | lookup k => exact ⟨s, rfl, hinv, hnd⟩

theorem runOps_aux : ∀ (ops : List (Op T)) (s₀ : Hash T), Inv s₀ → NodupKeys s₀ →
    ∃ s, List.foldlM applyOp s₀ ops = some s ∧ Inv s ∧ NodupKeys s := by
  intro ops
  induction ops with
  | nil =>
    intro s₀ hinv hnd
    exact ⟨s₀, rfl, hinv, hnd⟩
  | cons op rest ih =>
    intro s₀ hinv hnd
    obtain ⟨t, hstep, hinvt, hndt⟩ := applyOp_pres s₀ op hinv hnd
    obtain ⟨s, hrun, hinvs, hnds⟩ := ih t hinvt hndt
    exact ⟨s, by rw [List.foldlM_cons, hstep]; exact hrun, hinvs, hnds⟩

/-- Every finite operation sequence runs to completion. -/
theorem runOps_isSome (ops : List (Op T)) : (runOps ops).isSome = true := by
  obtain ⟨s, hrun, -, -⟩ := runOps_aux ops Hash.new inv_new nodup_new
  rw [runOps, hrun]
  rfl

/-- Reachable states satisfy the structural invariant and have
duplicate-free buckets. -/
theorem reachable_inv {s : Hash T} (h : Reachable s) : Inv s ∧ NodupKeys s := by
  obtain ⟨ops, hops⟩ := h
  obtain ⟨t, hrun, hinvt, hndt⟩ := runOps_aux ops Hash.new inv_new nodup_new
  rw [runOps] at hops
  rw [hops] at hrun
  injection hrun with h'
  subst h'
  exact ⟨hinvt, hndt⟩

/-! ## Further support lemmas -/

theorem getD_set_self {α : Type} (t : List α) (i : Nat) (b : α) (d : α)
    (hi : i < t.length) : (t.set i b).getD i d = b := by
  rw [List.getD_eq_getElem?_getD, List.getElem?_set_self hi]
  rfl

theorem getD_eq_nil_of_le {α : Type} (t : List (List α)) (i : Nat)
    (hle : t.length ≤ i) : t.getD i [] = [] := by
  rw [List.getD_eq_getElem?_getD, List.getElem?_eq_none hle]
  rfl

theorem set_getD_self {α : Type} (t : List α) (i : Nat) (d : α)
    (hi : i < t.length) : t.set i (t.getD i d) = t := by
  induction t generalizing i with
  | nil => rfl
  | cons x rest ih =>
    cases i with
    | zero => rfl
    | succ n =>
      simp only [List.set, List.getD_cons_succ]
      rw [ih n (by simpa using hi)]

/-- `upsert` with zero fuel fails exactly on the split trigger: the key is
new and the bucket has just exceeded `2^bits` entries. -/
theorem upsertF_zero_eq_none_iff (s : Hash T) (k : Key) (v : T) :
    upsertF 0 s k v = none ↔
      (upsertEntry k v (s.table.getD (s.hash k) [])).1 = true ∧
        (s.table.getD (s.hash k) []).length + 1 > 2 ^ s.bits := by
  simp only [upsertF, Nat.shiftLeft_eq, Nat.one_mul]
  constructor
  · intro h
    split at h
    · split at h
      · next hb hc => exact ⟨hb, hc⟩
      · simp at h
    · simp at h
  · rintro ⟨hb, hc⟩
    rw [← upsertStep_fst] at hb
    simp only [hb, if_true]
    rw [if_pos hc]

/-- A zero-fuel re-insertion pass fails exactly when some re-inserted
entry reaches the split trigger. -/
theorem reinsertWith_zero_none (l : List (NameVal T)) (t : Hash T)
    (h : reinsertWith (upsertF 0) t l = none) :
    ∃ (l₁ : List (NameVal T)) (e : NameVal T) (l₂ : List (NameVal T))
      (t' : Hash T),
      l = l₁ ++ e :: l₂ ∧ reinsertWith (upsertF 0) t l₁ = some t' ∧
      (upsertEntry e.name e.value (t'.table.getD (t'.hash e.name) [])).1 = true ∧
      (t'.table.getD (t'.hash e.name) []).length + 1 > 2 ^ t'.bits := by
  induction l generalizing t with
  | nil => simp [reinsertWith] at h
  | cons e rest ih =>
    simp only [reinsertWith] at h
    cases hup : upsertF 0 t e.name e.value with
    | none =>
      obtain ⟨hb, hc⟩ := (upsertF_zero_eq_none_iff t e.name e.value).mp hup
      exact ⟨[], e, rest, t, rfl, rfl, hb, hc⟩
    | some r =>
      rw [hup] at h
      obtain ⟨l₁, e', l₂, t', hsplit, hpre, hb, hc⟩ := ih r.2 h
      refine ⟨e :: l₁, e', l₂, t', by rw [hsplit]; rfl, ?_, hb, hc⟩
      simp only [reinsertWith, hup]
      exact hpre

/-- When the key is already present in its addressed bucket, `upsert`
takes the overwrite path at any fuel: it returns `false` and the state
produced by the in-place write, and the key then reads back as the new
value. -/
theorem upsertF_overwrite (s : Hash T) (k : Key) (v : T) (fuel : Nat)
    (hmem : k ∈ (s.table.getD (s.hash k) []).map NameVal.name) :
    upsertF fuel s k v = some (false, (s.upsertStep k v).2) ∧
      (s.upsertStep k v).2.lookup k = some v := by
  have hfst : (upsertEntry k v (s.table.getD (s.hash k) [])).1 = false := by
    rcases Bool.eq_false_or_eq_true (upsertEntry k v (s.table.getD (s.hash k) [])).1
      with h | h
    · exfalso
      obtain ⟨e, he, hek⟩ := List.mem_map.mp hmem
      exact ((upsertEntry_fst_iff v).mp h) e he hek
    · exact h
  have hfst' : (s.upsertStep k v).1 = false := by
    rw [upsertStep_fst]
    exact hfst
  have hlt : s.hash k < s.table.length := by
    by_contra hge
    rw [getD_eq_nil_of_le _ _ (by omega)] at hmem
    simp at hmem
  refine ⟨by cases fuel <;> simp [upsertF, hfst'], ?_⟩
  have hh : (s.upsertStep k v).2.hash k = s.hash k :=
    Hash.hash_congr k (upsertStep_bits s k v) (upsertStep_len s k v)
  simp only [Hash.lookup, hh]
  have hbucket : (s.upsertStep k v).2.table.getD (s.hash k) [] =
      (upsertEntry k v (s.table.getD (s.hash k) [])).2 := by
    simp only [Hash.upsertStep]
    exact getD_set_self _ _ _ _ hlt
  rw [hbucket, lookupEntry_upsertEntry]

/-- A successful `upsert` that leaves the bucket count unchanged performed
no split, so the key now sits in the bucket its unchanged address points
to. -/
theorem upsertF_no_split_mem {fuel : Nat} {s : Hash T} {k : Key} {v : T}
    {b : Bool} {s₁ : Hash T} (hinv : Inv s) (hnd : NodupKeys s)
    (hrun : upsertF fuel s k v = some (b, s₁)) (hlen : s₁.len = s.len)
    (hlt : s.hash k < s.table.length) :
    s₁ = (s.upsertStep k v).2 ∧
      k ∈ (s₁.table.getD (s₁.hash k) []).map NameVal.name := by
  have key : s₁ = (s.upsertStep k v).2 := by
    cases fuel with
    | zero =>
      simp only [upsertF] at hrun
      split at hrun
      · split at hrun
        · simp at hrun
        · injection hrun with h
          injection h with h1 h2
          exact h2.symm
      · injection hrun with h
        injection h with h1 h2
        exact h2.symm
    | succ f =>
      simp only [upsertF] at hrun
      split at hrun
      · split at hrun
        · exfalso
          rw [Option.map_eq_some'] at hrun
          obtain ⟨t', hre, heq⟩ := hrun
          injection heq with h1 h2
          obtain ⟨hinv2, hnd2, hlen2, hbits2, htot2⟩ :=
            upsertStep_outcome s k v hinv hnd
          have hinv3 : Inv (s.upsertStep k v).2.splitStep.2 :=
            splitStep_inv _ hinv2
          have hnd3 : NodupKeys (s.upsertStep k v).2.splitStep.2 :=
            splitStep_nodup _ hnd2
          obtain ⟨-, -, hlen4, -, -⟩ := reinsert_pres
            (fun h a c => upsertF_pres f h a c) _ hre hinv3 hnd3
          have hlen3 : (s.upsertStep k v).2.splitStep.2.len =
              (s.upsertStep k v).2.len + 1 := splitStep_len _
          rw [← h2] at hlen
          omega
        · injection hrun with h
          injection h with h1 h2
          exact h2.symm
      · injection hrun with h
        injection h with h1 h2
        exact h2.symm
  subst key
  refine ⟨rfl, ?_⟩
  have hh : (s.upsertStep k v).2.hash k = s.hash k :=
    Hash.hash_congr k (upsertStep_bits s k v) (upsertStep_len s k v)
  rw [hh]
  have hbucket : (s.upsertStep k v).2.table.getD (s.hash k) [] =
      (upsertEntry k v (s.table.getD (s.hash k) [])).2 := by
    simp only [Hash.upsertStep]
    exact getD_set_self _ _ _ _ hlt
  rw [hbucket, upsertEntry_map_name]
  split
  · simp
  · next hfst =>
    have hnot : ¬ ∀ e ∈ s.table.getD (s.hash k) [], e.name ≠ k := by
      intro hall
      exact hfst ((upsertEntry_fst_iff v).mpr hall)
    push_neg at hnot
    obtain ⟨e, he, hek⟩ := hnot
    exact List.mem_map.mpr ⟨e, he, hek⟩

/-! ## The claims -/

set_option maxRecDepth 10000 in
/-- **C1** (code bug): splits are *not* lookup-transparent.  After the 64
`run1Pairs` upserts the key `[1, 2]` (inserted first, value 100, never
removed) is found; the 65th upsert (`run1Key65`) makes bucket 1 exceed
`2^bits = 64` entries and triggers a split (the bucket count grows from 33
to 34), after which `lookup [1, 2]` returns `none` while the key that
triggered the split is still found.  The first splitting round splits
buckets one position behind the bucket whose folded keys the newly
appended bucket takes over, so those keys are stranded. -/
theorem claim1_split_lookup_loss :
    ((runOps run1Ops).map fun s => (s.len, s.lookup [1, 2]))
        = some (33, some 100) ∧
      ((runOps (run1Ops ++ [Op.upsert run1Key65 231])).map fun s =>
        (s.len, s.lookup [1, 2], s.lookup run1Key65))
        = some (34, none, some 231) :=
  ⟨rfl, rfl⟩

set_option maxRecDepth 10000 in
/-- **C2** (code bug): the upsert/lookup round trip fails on a reachable
state.  After the 64 `run2Pairs` upserts, upserting the fresh key
`run2KeyC` succeeds (returns `true`; the triggered split grows the table
to 34 buckets) but the immediately following `lookup run2KeyC` returns
`none` instead of the stored value: the split changed the key's address
from the folded bucket 1, where it was just stored, to the empty new
bucket 33. -/
theorem claim2_roundTrip_failure :
    ((runOps run2Ops).bind fun s => (upsertF 1 s run2KeyC 777).map fun r =>
      (r.1, r.2.len, r.2.lookup run2KeyC)) = some (true, 34, none) :=
  rfl

set_option maxRecDepth 100000 in
/-- **C3** counterexample: a reachable state (93 crafted upserts that keep
overflowing bucket 1) has `bits = 7` and `bucket_count = 64`, so the
claimed strict bound `2^(bits-1) < bucket_count` fails: `2^6 = 64 ≮ 64`. -/
theorem claim3_bitDepth_counterexample :
    ∃ s : Hash Nat, Reachable s ∧ s.bits = 7 ∧ s.len = 64 ∧
      ¬ (2 ^ (s.bits - 1) < s.len ∧ s.len ≤ 2 ^ s.bits) := by
  have h : (runOps hotOps).map (fun s => (s.bits, s.len)) = some (7, 64) := by
    rfl
  cases hr : runOps hotOps with
  | none => rw [hr] at h; simp at h
  | some s =>
    rw [hr] at h
    simp only [Option.map_some'] at h
    injection h with h'
    have hb : s.bits = 7 := congrArg Prod.fst h'
    have hl : s.len = 64 := congrArg Prod.snd h'
    refine ⟨s, ⟨hotOps, hr⟩, hb, hl, ?_⟩
    rw [hb, hl]
    decide

/-- **C3** amended: in every reachable state the bit-depth bound holds
with a non-strict lower end, `2^(bits-1) ≤ bucket_count ≤ 2^bits`; the
lower bound is attained exactly when a round-closing split leaves the
count at a power of two. -/
theorem claim3_bitDepth_amended (s : Hash T) (hreach : Reachable s) :
    2 ^ (s.bits - 1) ≤ s.len ∧ s.len ≤ 2 ^ s.bits :=
  ⟨(reachable_inv hreach).1.2.1, (reachable_inv hreach).1.2.2.1⟩

theorem claim3_bitDepth_amended_witness :
    2 ^ ((Hash.new : Hash Nat).bits - 1) ≤ (Hash.new : Hash Nat).len ∧
      (Hash.new : Hash Nat).len ≤ 2 ^ (Hash.new : Hash Nat).bits :=
  claim3_bitDepth_amended (Hash.new : Hash Nat) ⟨[], rfl⟩

/-- **C4**: in the cursor-advance step of a split, after the one new
bucket is appended (so the count is `len + 1`), `bits` is incremented and
`split_bucket` reset to 0 exactly under the stated condition
`len + 1 > 2^bits - 1`; otherwise `split_bucket` is incremented by 1 and
`bits` is unchanged. -/
theorem claim4_split_round_transition (s : Hash T) :
    (s.splitStep).2.len = s.len + 1 ∧
      ((s.splitStep).2.bits = s.bits + 1 ∧ (s.splitStep).2.split_bucket = 0 ↔
        s.len + 1 > 2 ^ s.bits - 1) ∧
      (¬ (s.len + 1 > 2 ^ s.bits - 1) →
        (s.splitStep).2.bits = s.bits ∧
          (s.splitStep).2.split_bucket = s.split_bucket + 1) := by
  have hL : s.len = s.table.length := rfl
  refine ⟨splitStep_len s, ?_, ?_⟩
  · simp only [Hash.splitStep]
    split
    next hc =>
      simp only [List.length_append, List.length_set, List.length_cons,
        List.length_nil, Nat.shiftLeft_eq, Nat.one_mul] at hc
      constructor
      · intro _
        show s.len + 1 > 2 ^ s.bits - 1
        omega
      · intro _
        exact ⟨rfl, rfl⟩
    next hc =>
      simp only [List.length_append, List.length_set, List.length_cons,
        List.length_nil, Nat.shiftLeft_eq, Nat.one_mul] at hc
      constructor
      · rintro ⟨h1, -⟩
        have h1' : s.bits = s.bits + 1 := h1
        omega
      · intro h
        have h' : s.len + 1 > 2 ^ s.bits - 1 := h
        exact absurd (by omega : s.table.length + 1 > 2 ^ s.bits - 1) hc
  · simp only [Hash.splitStep]
    split
    next hc =>
      simp only [List.length_append, List.length_set, List.length_cons,
        List.length_nil, Nat.shiftLeft_eq, Nat.one_mul] at hc
      intro h
      exact absurd (show s.len + 1 > 2 ^ s.bits - 1 by omega) h
    next hc =>
      intro h
      exact ⟨rfl, rfl⟩

theorem claim4_split_round_transition_witness :
    (Hash.new : Hash Nat).splitStep.2.bits = 6 ∧
      (Hash.new : Hash Nat).splitStep.2.split_bucket = 0 :=
  ((claim4_split_round_transition (Hash.new : Hash Nat)).2.1).mpr (by decide)

set_option maxRecDepth 10000 in
/-- **C5** counterexample: at the reachable state after the 65
`hot65Ops` upserts, upserting key `[66, 3]` with fuel 1 (one split
allowed, none during its re-insertion pass) runs out of fuel, while fuel 2
succeeds: the split triggered by this upsert re-inserts 66 entries of the
hot bucket and the re-insertion itself reaches the split trigger — a
split does recursively invoke another split. -/
theorem claim5_nested_split_counterexample :
    ((runOps hot65Ops).bind fun s => upsertF 1 s [66, 3] 466) = none ∧
      ((runOps hot65Ops).bind fun s => upsertF 2 s [66, 3] 466).isSome = true :=
  ⟨rfl, rfl⟩

set_option maxRecDepth 10000 in
/-- **C5** amended: the split-trigger branch *can* be reached during the
re-insertion phase of a split: there is a reachable state and a fresh key
whose upsert triggers a split whose re-insertion pass itself reaches the
split trigger (`splitF 0`, which forbids nested splits, fails on the
pushed state — by `reinsertWith_zero_none` this happens only when a
re-inserted entry meets the trigger), while two levels of splits complete
the operation. -/
theorem claim5_nested_split_amended :
    ∃ (s : Hash Nat) (k : Key) (v : Nat), Reachable s ∧
      upsertF 1 s k v = none ∧ (upsertF 2 s k v).isSome = true ∧
      splitF 0 ((s.upsertStep k v).2) = none := by
  have h1 : ((runOps hot65Ops).bind fun s => upsertF 1 s [66, 3] 466) = none :=
    rfl
  have h2 : ((runOps hot65Ops).bind fun s =>
      upsertF 2 s [66, 3] 466).isSome = true := rfl
  have h3 : ((runOps hot65Ops).map fun s =>
      splitF 0 ((s.upsertStep [66, 3] 466).2)) = some none := rfl
  cases hr : runOps hot65Ops with
  | none =>
    have := runOps_isSome (hot65Ops)
    rw [hr] at this
    simp at this
  | some s =>
    rw [hr] at h1 h2 h3
    simp only [Option.some_bind, Option.map_some'] at h1 h2 h3
    injection h3 with h3'
    exact ⟨s, [66, 3], 466, ⟨hot65Ops, hr⟩, h1, h2, h3'⟩

/-- **C6**: the address of a key is its rolling polynomial hash masked to
the low `bits` bits, folded by clearing the top addressing bit when it
points past the bucket count; on every reachable state the result indexes
a materialized bucket, so the bucket accesses in `lookup`, `upsert` and
`remove` (all of which index by `Hash::hash`) are in bounds. -/
theorem claim6_addressing (s : Hash T) (name : Key) (hreach : Reachable s) :
    s.hash name =
      (if hashBytes name &&& (2 ^ s.bits - 1) < s.len
        then hashBytes name &&& (2 ^ s.bits - 1)
        else (hashBytes name &&& (2 ^ s.bits - 1)) ^^^ 2 ^ (s.bits - 1)) ∧
      s.hash name < s.len :=
  ⟨by simp only [Hash.hash, Nat.shiftLeft_eq, Nat.one_mul],
    Hash.hash_lt s name (reachable_inv hreach).1⟩

theorem claim6_addressing_witness :
    (Hash.new : Hash Nat).hash [97] = 1 ∧
      (Hash.new : Hash Nat).hash [97] < (Hash.new : Hash Nat).len := by
  have h := claim6_addressing (Hash.new : Hash Nat) [97] ⟨[], rfl⟩
  exact ⟨by rw [h.1]; rfl, h.2⟩

set_option maxRecDepth 10000 in
/-- **C7** counterexample: on the reachable state after `run2Pairs`,
`upsert(run2KeyC, 777)` (which triggers a split that strands the key) and
then `upsert(run2KeyC, 888)` has the second upsert report `true`
("new key"), not `false` ("overwrote"), although `lookup` afterwards does
return 888. -/
theorem claim7_overwrite_counterexample :
    ((runOps run2Ops).bind fun s => (upsertF 1 s run2KeyC 777).bind fun r₁ =>
      (upsertF 1 r₁.2 run2KeyC 888).map fun r₂ => (r₂.1, r₂.2.lookup run2KeyC))
      = some (true, some 888) :=
  rfl

/-- **C7** amended: (1) whenever `upsert(k, v₂)` finds `k` in the addressed
bucket it overwrites in place, returns `false`, performs no split check
(bucket count, `bits` and `split_bucket` unchanged) and a subsequent
`lookup k` returns `v₂`; (2) the triple `upsert(k,v₁); upsert(k,v₂);
lookup k` behaves as claimed *provided the first upsert triggers no split*
(the bucket count is unchanged); the counterexample shows the proviso is
necessary. -/
theorem claim7_overwrite_amended :
    (∀ (s : Hash T) (k : Key) (v₂ : T) (fuel : Nat),
      k ∈ (s.table.getD (s.hash k) []).map NameVal.name →
      upsertF fuel s k v₂ = some (false, (s.upsertStep k v₂).2) ∧
        (s.upsertStep k v₂).2.bits = s.bits ∧
        (s.upsertStep k v₂).2.split_bucket = s.split_bucket ∧
        (s.upsertStep k v₂).2.len = s.len ∧
        (s.upsertStep k v₂).2.lookup k = some v₂) ∧
    (∀ (s : Hash T) (k : Key) (v₁ v₂ : T) (f₁ f₂ : Nat) (b : Bool)
      (s₁ : Hash T), Reachable s → upsertF f₁ s k v₁ = some (b, s₁) →
      s₁.len = s.len →
      upsertF f₂ s₁ k v₂ = some (false, (s₁.upsertStep k v₂).2) ∧
        (s₁.upsertStep k v₂).2.lookup k = some v₂) := by
  constructor
  · intro s k v₂ fuel hmem
    obtain ⟨hrun, hlook⟩ := upsertF_overwrite s k v₂ fuel hmem
    exact ⟨hrun, upsertStep_bits s k v₂, upsertStep_split_bucket s k v₂,
      upsertStep_len s k v₂, hlook⟩
  · intro s k v₁ v₂ f₁ f₂ b s₁ hreach hrun hlen
    obtain ⟨hinv, hnd⟩ := reachable_inv hreach
    have hlt : s.hash k < s.table.length := Hash.hash_lt s k hinv
    obtain ⟨-, hmem⟩ := upsertF_no_split_mem hinv hnd hrun hlen hlt
    obtain ⟨hrun2, hlook2⟩ := upsertF_overwrite s₁ k v₂ f₂ hmem
    exact ⟨hrun2, hlook2⟩

theorem claim7_overwrite_amended_witness :
    upsertF 0 ((Hash.new : Hash Nat).upsertStep [97] 5).2 [97] 7 =
      some (false,
        (((Hash.new : Hash Nat).upsertStep [97] 5).2.upsertStep [97] 7).2) ∧
      (((Hash.new : Hash Nat).upsertStep [97] 5).2.upsertStep [97] 7).2.lookup
        [97] = some 7 := by
  have h := claim7_overwrite_amended.1 ((Hash.new : Hash Nat).upsertStep [97] 5).2
    [97] 7 0 (by decide)
  exact ⟨h.1, h.2.2.2.2⟩

/-- **C8**: `remove` never splits and never changes the bucket count,
`bits` or `split_bucket`; it deletes exactly the first matching entry of
the addressed bucket, preserving the order of the remaining entries, and
returns its value, or returns `none` leaving the state unchanged.  (Proved
for every state, hence for every reachable one.) -/
theorem claim8_remove_spec (s : Hash T) (k : Key) :
    ((s.remove k).2.len = s.len ∧ (s.remove k).2.bits = s.bits ∧
      (s.remove k).2.split_bucket = s.split_bucket) ∧
    (∀ (pre post : List (NameVal T)) (e : NameVal T),
      s.table.getD (s.hash k) [] = pre ++ e :: post → e.name = k →
      (∀ x ∈ pre, x.name ≠ k) →
      (s.remove k).1 = some e.value ∧
        (s.remove k).2.table = s.table.set (s.hash k) (pre ++ post)) ∧
    ((∀ e ∈ s.table.getD (s.hash k) [], e.name ≠ k) →
      (s.remove k).1 = none ∧ (s.remove k).2 = s) := by
  refine ⟨⟨by simp [Hash.remove, Hash.len], rfl, rfl⟩, ?_, ?_⟩
  · intro pre post e hdecomp hek hpre
    have hrem := @removeEntry_decomp T pre post e k hek hpre
    constructor
    · show (removeEntry k (s.table.getD (s.hash k) [])).1 = some e.value
      rw [hdecomp, hrem]
    · show s.table.set (s.hash k)
          (removeEntry k (s.table.getD (s.hash k) [])).2 = _
      rw [hdecomp, hrem]
  · intro hnone
    have hrem := removeEntry_of_not_mem hnone
    constructor
    · show (removeEntry k (s.table.getD (s.hash k) [])).1 = none
      rw [hrem]
    · show (⟨s.table.set (s.hash k)
          (removeEntry k (s.table.getD (s.hash k) [])).2,
          s.bits, s.split_bucket⟩ : Hash T) = s
      rw [hrem]
      by_cases hlt : s.hash k < s.table.length
      · rw [set_getD_self _ _ _ hlt]
      · rw [List.set_eq_of_length_le (by omega)]

theorem claim8_remove_spec_witness :
    ((((Hash.new : Hash Nat).upsertStep [97] 5).2.remove [97]).1 = some 5 ∧
      (((Hash.new : Hash Nat).upsertStep [97] 5).2.remove [97]).2.table =
        ((Hash.new : Hash Nat).upsertStep [97] 5).2.table.set
          (((Hash.new : Hash Nat).upsertStep [97] 5).2.hash [97]) []) ∧
      ((Hash.new : Hash Nat).remove [99]).1 = none ∧
      ((Hash.new : Hash Nat).remove [99]).2 = Hash.new := by
  refine ⟨?_, ?_⟩
  · have h := (claim8_remove_spec ((Hash.new : Hash Nat).upsertStep [97] 5).2
      [97]).2.1 [] [] ⟨[97], 5⟩ (by rfl) rfl
      (fun x hx => absurd hx (List.not_mem_nil x))
    exact h
  · exact (claim8_remove_spec (Hash.new : Hash Nat) [99]).2.2
      (fun e he => absurd (show e ∈ ([] : List (NameVal Nat)) from he)
        (List.not_mem_nil e))

/-- **C9**: every finite sequence of public operations runs to completion
(`lookup` and `remove` are plain total functions of the embedding; the
fuelled `upsert` never exhausts its self-computed fuel), and on every
reachable state any fuel of at least `totalEntries + 1 - bucket_count`
completes an upsert, splits and their recursive re-insertions included:
every split strictly grows the table while the entry count does not, and
a split can only trigger while the entry count exceeds the bucket count. -/
theorem claim9_termination :
    (∀ ops : List (Op T), (runOps ops).isSome = true) ∧
    (∀ s : Hash T, Reachable s → ∀ (k : Key) (v : T) (fuel : Nat),
      s.totalEntries + 1 ≤ fuel + s.len → (upsertF fuel s k v).isSome = true) :=
  ⟨runOps_isSome, fun s hreach k v fuel hfe =>
    upsertF_total fuel s k v (reachable_inv hreach).1
      (reachable_inv hreach).2 hfe⟩

theorem claim9_termination_witness :
    (runOps (hot65Ops : List (Op Nat))).isSome = true ∧
      (upsertF 1 (Hash.new : Hash Nat) [97] 5).isSome = true :=
  ⟨claim9_termination.1 hot65Ops,
    claim9_termination.2 (Hash.new : Hash Nat) ⟨[], rfl⟩ [97] 5 1 (by decide)⟩

/-- **C10**: in every reachable state no bucket contains two entries with
the same key: every push is guarded by a full scan of the very bucket it
appends to, both in client upserts and in split re-insertion. -/
theorem claim10_nodup_buckets (s : Hash T) (hreach : Reachable s) :
    ∀ b ∈ s.table, (b.map NameVal.name).Nodup :=
  (reachable_inv hreach).2

theorem claim10_nodup_buckets_witness :
    (([] : List (NameVal Nat)).map NameVal.name).Nodup :=
  claim10_nodup_buckets (Hash.new : Hash Nat) ⟨[], rfl⟩ []
    (by simp [Hash.new, NHASH])

end StupidHash
